import Mathlib

/-!
Verification of the core of the KML pole-number pipeline
(`backend/main.py`): the `extract_number` identifier-to-integer rule
(lines 74-99) and the dataframe normalisation in `process_kml_file`
(lines 102-135).  Strings are modelled as `List Char`; the Python
character classes (`str.isalpha`, the regex class `\d`, the whitespace
set used by `str.strip` / `str.split`) are modelled over their ASCII
ranges, which is the character set the labels use.
-/

namespace KMLCore

/-- Model of the regex character class `\d` (ASCII digits). -/
def isDigitChar (c : Char) : Bool :=
  decide (48 ≤ c.toNat ∧ c.toNat ≤ 57)

/-- Model of Python alphabetic characters (ASCII letters). -/
def isAlphaChar (c : Char) : Bool :=
  decide ((65 ≤ c.toNat ∧ c.toNat ≤ 90) ∨ (97 ≤ c.toNat ∧ c.toNat ≤ 122))

/-- Model of the Python whitespace set used by `str.strip` and `str.split`:
space, tab, newline, carriage return, vertical tab, form feed. -/
def pyIsSpace (c : Char) : Bool :=
  decide (c.toNat = 32 ∨ c.toNat = 9 ∨ c.toNat = 10 ∨ c.toNat = 13 ∨
    c.toNat = 11 ∨ c.toNat = 12)

/-- Python `str.strip()`: drop leading and trailing whitespace. -/
def pyStrip (s : List Char) : List Char :=
  ((s.dropWhile pyIsSpace).reverse.dropWhile pyIsSpace).reverse

/-- Python `str.upper()` (per character, ASCII): core `Char.toUpper` is
exactly the ASCII upper-casing rule. -/
def pyUpper (s : List Char) : List Char :=
  s.map Char.toUpper

/-- Python `str.isalpha()`: nonempty and every character alphabetic. -/
def pyIsAlpha (s : List Char) : Bool :=
  !s.isEmpty && s.all isAlphaChar

/-- Maximal runs of characters satisfying `p`, left to right; `acc` holds
the (reversed) run in progress.  With `p = not of pyIsSpace` this is
Python `str.split()`; with `p = isDigitChar` it is `re.findall` for
the pattern of one-or-more digits. -/
def runsAux (p : Char → Bool) : List Char → List Char → List (List Char)
  | [], acc => if acc.isEmpty then [] else [acc.reverse]
  | c :: cs, acc =>
    if p c then runsAux p cs (c :: acc)
    else if acc.isEmpty then runsAux p cs []
    else acc.reverse :: runsAux p cs []

/-- Python `str.split()` with no separator: whitespace-delimited tokens,
empty tokens dropped. -/
def splitWS (s : List Char) : List (List Char) :=
  runsAux (fun c => !pyIsSpace c) s []

/-- Model of `re.findall` for one-or-more digits: all maximal digit runs,
in order. -/
def reFindallDigits (s : List Char) : List (List Char) :=
  runsAux isDigitChar s []

/-- Model of `re.search` for one-or-more digits: the first maximal digit
run, if any digit occurs. -/
def reSearchDigits : List Char → Option (List Char)
  | [] => none
  | c :: cs =>
    if isDigitChar c then some (c :: cs.takeWhile isDigitChar)
    else reSearchDigits cs

/-- First contiguous run of digit characters of a string (specification
vocabulary for the value `re.search` returns on a digit-bearing token). -/
def firstDigitRun (t : List Char) : List Char :=
  (t.dropWhile (fun c => !isDigitChar c)).takeWhile isDigitChar

/-- Python `str.lstrip("0")`: drop leading zero characters. -/
def lstripZeros (s : List Char) : List Char :=
  s.dropWhile (fun c => c == '0')

/-- Python `int()` on a string of digits. -/
def pyParseDigits (s : List Char) : Nat :=
  s.foldl (fun a c => 10 * a + (c.toNat - 48)) 0

/-- Lines 90-91 and 96-97: `int(number_str.lstrip("0") or 0)` applied to a
digit run. -/
def runValue (run : List Char) : Int :=
  if lstripZeros run = [] then 0 else (pyParseDigits (lstripZeros run) : Int)

/-- Lines 87-91: the loop over whitespace tokens, returning at the first
token in which `re.search` finds a digit run. -/
def scanTokens : List (List Char) → Option Int
  | [] => none
  | t :: ts =>
    match reSearchDigits t with
    | some run => some (runValue run)
    | none => scanTokens ts

/-- Lines 79-99 of `extract_number`, after the `pd.isna` / non-string
guard: normalise, test the empty and purely-alphabetic guards, scan the
whitespace tokens, and fall back to a whole-string digit search. -/
def extractNumberStr (raw : List Char) : Int :=
  let s := pyUpper (pyStrip raw)
  if s.isEmpty || pyIsAlpha (s.filter (fun c => c.toNat != 32)) then 0
  else
    match scanTokens (splitWS s) with
    | some v => v
    | none =>
      match reFindallDigits s with
      | run :: _ => runValue run
      | [] => 0

/-- Lines 74-99: `extract_number`.  The `none` case models the
`pd.isna(id_str) or not isinstance(id_str, str)` guard of line 76. -/
def extract_number : Option (List Char) → Int
  | none => 0
  | some s => extractNumberStr s

/-- Variant of `extract_number` with the whole-string fallback scan
(lines 93-97) removed: the token scan alone decides the result.  Used to
compare against `extract_number` itself. -/
def extract_number_token_scan : Option (List Char) → Int
  | none => 0
  | some raw =>
    let s := pyUpper (pyStrip raw)
    if s.isEmpty || pyIsAlpha (s.filter (fun c => c.toNat != 32)) then 0
    else
      match scanTokens (splitWS s) with
      | some v => v
      | none => 0

/-- Decimal digit character for a value below ten. -/
def digitChar : Nat → Char
  | 0 => '0'
  | 1 => '1'
  | 2 => '2'
  | 3 => '3'
  | 4 => '4'
  | 5 => '5'
  | 6 => '6'
  | 7 => '7'
  | 8 => '8'
  | _ => '9'

/-- Decimal digits of a natural number, most significant first; `fuel`
bounds the recursion depth and any `fuel > n` is sufficient. -/
def toDecimalAux : Nat → Nat → List Char
  | 0, _ => []
  | fuel + 1, n =>
    if n < 10 then [digitChar n]
    else toDecimalAux fuel (n / 10) ++ [digitChar (n % 10)]

/-- Python `str()` of a natural number: its decimal digits, no leading
zeros. -/
def toDecimal (n : Nat) : List Char :=
  toDecimalAux (n + 1) n

/-- Python `str()` of an int. -/
def pyStr (n : Int) : List Char :=
  if n < 0 then '-' :: toDecimal n.natAbs else toDecimal n.toNat

/-- One parsed placemark row (`ID`, `Latitude`, `Longitude`) as produced
by `parse_kml_points_to_df`.  The coordinates are float64 values the core
never inspects, so their type is an arbitrary parameter. -/
structure RawRecord (α : Type) where
  identifier : List Char
  latitude : α
  longitude : α
deriving DecidableEq

/-- One dataframe row after lines 111-115: the raw fields plus the
`number` and `formatted_ID` columns. -/
structure KeyedRecord (α : Type) where
  identifier : List Char
  latitude : α
  longitude : α
  number : Int
  formatted_ID : List Char
deriving DecidableEq

/-- Lines 111-115: compute the `number` and `formatted_ID` columns of one
row. -/
def keyRecord {α : Type} (r : RawRecord α) : KeyedRecord α :=
  let n := extract_number (some r.identifier)
  { identifier := r.identifier
    latitude := r.latitude
    longitude := r.longitude
    number := n
    formatted_ID := if 0 < n then 'P' :: pyStr n else pyUpper (pyStrip r.identifier) }

/-- Comparison used by the sort of line 118: ascending by the `number`
column. -/
def numberLE {α : Type} (a b : KeyedRecord α) : Prop :=
  a.number ≤ b.number

instance {α : Type} : DecidableRel (@numberLE α) :=
  fun a b => inferInstanceAs (Decidable (a.number ≤ b.number))

instance {α : Type} : IsTotal (KeyedRecord α) numberLE :=
  ⟨fun a b => Int.le_total a.number b.number⟩

instance {α : Type} : IsTrans (KeyedRecord α) numberLE :=
  ⟨fun _ _ _ h h' => le_trans h h'⟩

/-- Line 118: `df.sort_values(by="number")` — reorder the rows ascending
by the `number` column.  The source leaves the pandas sort kind at its
default; this model fixes one concrete ascending reorder, and only
order and permutation facts are derived from it. -/
def sortByNumber {α : Type} (l : List (KeyedRecord α)) : List (KeyedRecord α) :=
  l.insertionSort numberLE

/-- Number of rows of `l` whose `number` column equals `k`. -/
def countNumber {α : Type} (l : List (KeyedRecord α)) (k : Int) : Nat :=
  (l.filter (fun r => r.number == k)).length

/-- First-occurrence deduplication, as `pandas.Series.unique` performs on
line 122; `seen` holds the values already emitted. -/
def dedupFirstAux : List Int → List Int → List Int
  | [], _ => []
  | x :: xs, seen =>
    if x ∈ seen then dedupFirstAux xs seen
    else x :: dedupFirstAux xs (x :: seen)

/-- Values of a list in first-occurrence order, duplicates removed. -/
def dedupFirst (l : List Int) : List Int :=
  dedupFirstAux l []

/-- Lines 120-125: the `number` values of the rows marked by
`df.duplicated(subset=["number"], keep=False)` — those whose value occurs
in at least two rows — deduplicated in first-occurrence order by
`unique()`, with the sentinel 0 (and any non-positive value) filtered
out. -/
def dupNumbers {α : Type} (df : List (KeyedRecord α)) : List Int :=
  (dedupFirst ((df.filter (fun r => 2 ≤ countNumber df r.number)).map
    (fun r => r.number))).filter (fun n => decide (0 < n))

/-- Lines 128-133: the result dictionary. -/
structure Summary (α : Type) where
  total_poles : Nat
  duplicate_numbers : List Int
  duplicate_count : Nat
  sample_data : List (KeyedRecord α)
deriving DecidableEq

/-- Model of `fastapi.HTTPException` as raised on line 108. -/
structure HTTPException where
  status : Nat
  detail : List Char
deriving DecidableEq

/-- Lines 102-135 of `process_kml_file`, after the KML parse: fail on an
empty record sequence, otherwise derive the key columns, sort by the
`number` column, collect the positive numbers occurring at least twice
(in first-seen order of the sorted frame, zeros filtered out), and
assemble the summary. -/
def process_kml_file {α : Type} (records : List (RawRecord α)) :
    Except HTTPException (List (KeyedRecord α) × Summary α) :=
  if records.isEmpty then
    Except.error { status := 400, detail := ("No valid placemarks found in KML file").data }
  else
    let keyed := records.map keyRecord
    let df := sortByNumber keyed
    let duplicated_numbers := dupNumbers df
    Except.ok (df,
      { total_poles := df.length
        duplicate_numbers := duplicated_numbers
        duplicate_count := duplicated_numbers.length
        sample_data := df.take 10 })

end KMLCore


namespace KMLCore

/-! Character-level facts. -/

theorem toNat_ofNat_of_lt {n : Nat} (h : n < 55296) : (Char.ofNat n).toNat = n := by
  rw [Char.ofNat, dif_pos (Or.inl h)]
  simp [Char.ofNatAux, Char.toNat, UInt32.toNat]

theorem toUpper_of_not_lower {c : Char} (h : ¬(97 ≤ c.toNat ∧ c.toNat ≤ 122)) :
    Char.toUpper c = c := by
  rw [Char.toUpper]
  exact if_neg h

theorem toNat_toUpper_of_lower {c : Char} (h1 : 97 ≤ c.toNat) (h2 : c.toNat ≤ 122) :
    (Char.toUpper c).toNat = c.toNat - 32 := by
  rw [Char.toUpper, if_pos ⟨h1, h2⟩]
  exact toNat_ofNat_of_lt (by omega)

theorem isDigitChar_not_space {c : Char} (h : isDigitChar c = true) : pyIsSpace c = false := by
  simp [isDigitChar] at h
  simp [pyIsSpace]
  omega

theorem isDigitChar_not_alpha {c : Char} (h : isDigitChar c = true) : isAlphaChar c = false := by
  simp [isDigitChar] at h
  simp [isAlphaChar]
  omega

theorem isDigitChar_ne_32 {c : Char} (h : isDigitChar c = true) : (c.toNat != 32) = true := by
  simp [isDigitChar] at h
  simp
  omega

theorem toUpper_of_digit {c : Char} (h : isDigitChar c = true) : Char.toUpper c = c := by
  simp [isDigitChar] at h
  exact toUpper_of_not_lower (by omega)

theorem isAlphaChar_toUpper {c : Char} (h : isAlphaChar c = true) :
    isAlphaChar (Char.toUpper c) = true := by
  simp [isAlphaChar] at h
  by_cases hl : 97 ≤ c.toNat ∧ c.toNat ≤ 122
  · have := toNat_toUpper_of_lower hl.1 hl.2
    simp [isAlphaChar, this]
    omega
  · rw [toUpper_of_not_lower hl]
    simp [isAlphaChar]
    omega

theorem toNat_toUpper_ne_32 {c : Char} (h : c.toNat ≠ 32) : (Char.toUpper c).toNat ≠ 32 := by
  by_cases hl : 97 ≤ c.toNat ∧ c.toNat ≤ 122
  · rw [toNat_toUpper_of_lower hl.1 hl.2]
    omega
  · rw [toUpper_of_not_lower hl]
    exact h

theorem toNat_toUpper_eq_32 {c : Char} (h : c.toNat = 32) : (Char.toUpper c).toNat = 32 := by
  rw [toUpper_of_not_lower (by omega)]
  exact h

/-! List helpers for the token machinery. -/

theorem dropWhile_eq_self_of {p : Char → Bool} {l : List Char}
    (h : ∀ c ∈ l, p c = false) : l.dropWhile p = l := by
  cases l with
  | nil => rfl
  | cons c cs =>
    rw [List.dropWhile_cons, if_neg]
    simp [h c (by simp)]

theorem takeWhile_eq_self_of {p : Char → Bool} {l : List Char}
    (h : ∀ c ∈ l, p c = true) : l.takeWhile p = l := by
  induction l with
  | nil => rfl
  | cons c cs ih =>
    rw [List.takeWhile_cons, if_pos (h c (by simp))]
    rw [ih fun d hd => h d (by simp [hd])]

theorem pyStrip_of_no_space {l : List Char}
    (h : ∀ c ∈ l, pyIsSpace c = false) : pyStrip l = l := by
  unfold pyStrip
  rw [dropWhile_eq_self_of h]
  rw [dropWhile_eq_self_of (fun c hc => h c (List.mem_reverse.mp hc))]
  exact List.reverse_reverse l

theorem pyUpper_fixed {l : List Char} (h : ∀ c ∈ l, Char.toUpper c = c) : pyUpper l = l := by
  unfold pyUpper
  rw [List.map_congr_left h]
  simp

/-! Facts about maximal runs (`splitWS` / `reFindallDigits`). -/

theorem flatten_runsAux (p : Char → Bool) (s : List Char) : ∀ acc : List Char,
    (runsAux p s acc).flatten = acc.reverse ++ s.filter p := by
  induction s with
  | nil =>
    intro acc
    by_cases h : acc.isEmpty
    · simp [runsAux, h, List.isEmpty_iff.mp h]
    · simp [runsAux, h]
  | cons c cs ih =>
    intro acc
    by_cases h : p c
    · simp [runsAux, h, ih (c :: acc), List.filter_cons]
    · by_cases ha : acc.isEmpty
      · simp [runsAux, h, ha, ih [], List.filter_cons, List.isEmpty_iff.mp ha]
      · simp [runsAux, h, ha, ih [], List.filter_cons]

theorem runsAux_eq_nil {p : Char → Bool} {s : List Char}
    (h : ∀ c ∈ s, p c = false) : runsAux p s [] = [] := by
  induction s with
  | nil => rfl
  | cons c cs ih =>
    have hc := h c (by simp)
    simp [runsAux, hc]
    exact ih fun d hd => h d (by simp [hd])

theorem runsAux_single {p : Char → Bool} (s : List Char) : ∀ acc : List Char,
    (acc.isEmpty = false ∨ s ≠ []) → (∀ c ∈ s, p c = true) →
    runsAux p s acc = [acc.reverse ++ s] := by
  induction s with
  | nil =>
    intro acc hne _
    rcases hne with h | h
    · simp [runsAux, h]
    · simp at h
  | cons c cs ih =>
    intro acc _ hall
    have hc : p c = true := hall c (by simp)
    rw [show runsAux p (c :: cs) acc = if p c then runsAux p cs (c :: acc)
        else if acc.isEmpty then runsAux p cs [] else acc.reverse :: runsAux p cs [] from rfl]
    rw [if_pos hc]
    rw [ih (c :: acc) (Or.inl (by simp)) (fun d hd => hall d (by simp [hd]))]
    simp

theorem mem_of_mem_runs {p : Char → Bool} {s t : List Char} {c : Char}
    (ht : t ∈ runsAux p s []) (hc : c ∈ t) : c ∈ s.filter p := by
  have hf := flatten_runsAux p s []
  simp only [List.reverse_nil, List.nil_append] at hf
  rw [← hf]
  exact List.mem_flatten_of_mem ht hc

end KMLCore

namespace KMLCore

/-! Facts about the digit-run search and the token scan. -/

theorem reSearchDigits_eq_none {t : List Char} (h : t.any isDigitChar = false) :
    reSearchDigits t = none := by
  induction t with
  | nil => rfl
  | cons c cs ih =>
    simp only [List.any_cons, Bool.or_eq_false_iff] at h
    simp [reSearchDigits, h.1, ih h.2]

theorem reSearchDigits_eq_some {t : List Char} (h : t.any isDigitChar = true) :
    reSearchDigits t = some (firstDigitRun t) := by
  induction t with
  | nil => simp at h
  | cons c cs ih =>
    by_cases hc : isDigitChar c
    · simp [reSearchDigits, hc, firstDigitRun, List.dropWhile_cons, List.takeWhile_cons]
    · have hcs : cs.any isDigitChar = true := by
        simp only [List.any_cons, hc, Bool.false_or] at h
        exact h
      simp [reSearchDigits, hc, ih hcs, firstDigitRun, List.dropWhile_cons]

theorem scanTokens_eq (ts : List (List Char)) :
    scanTokens ts =
      (ts.find? (fun t => t.any isDigitChar)).map (fun t => runValue (firstDigitRun t)) := by
  induction ts with
  | nil => rfl
  | cons t ts ih =>
    by_cases h : t.any isDigitChar
    · rw [show List.find? (fun t => t.any isDigitChar) (t :: ts) = some t from
        List.find?_cons_of_pos ts h]
      simp [scanTokens, reSearchDigits_eq_some h]
    · rw [show List.find? (fun t => t.any isDigitChar) (t :: ts) =
          List.find? (fun t => t.any isDigitChar) ts from List.find?_cons_of_neg ts h]
      rw [← ih]
      simp [scanTokens, reSearchDigits_eq_none (by simpa using h)]

theorem runValue_nonneg (run : List Char) : 0 ≤ runValue run := by
  unfold runValue
  split
  · exact le_refl 0
  · exact Int.natCast_nonneg _

theorem scanTokens_nonneg {ts : List (List Char)} {v : Int}
    (h : scanTokens ts = some v) : 0 ≤ v := by
  rw [scanTokens_eq] at h
  rcases Option.map_eq_some'.mp h with ⟨t, _, hv⟩
  rw [← hv]
  exact runValue_nonneg _

end KMLCore

namespace KMLCore

/-! Facts about the decimal printer. -/

theorem isDigitChar_digitChar {d : Nat} (h : d < 10) : isDigitChar (digitChar d) = true := by
  interval_cases d <;> decide

theorem toNat_digitChar {d : Nat} (h : d < 10) : (digitChar d).toNat = 48 + d := by
  interval_cases d <;> decide

theorem digitChar_ne_zero {d : Nat} (h0 : 0 < d) (h : d < 10) : (digitChar d == '0') = false := by
  interval_cases d <;> decide

theorem pyParseDigits_append (l : List Char) (c : Char) :
    pyParseDigits (l ++ [c]) = 10 * pyParseDigits l + (c.toNat - 48) := by
  simp [pyParseDigits, List.foldl_append]

theorem toDecimalAux_ne_nil : ∀ fuel n : Nat, n < fuel → toDecimalAux fuel n ≠ [] := by
  intro fuel
  induction fuel with
  | zero => intro n h; omega
  | succ fuel ih =>
    intro n _
    by_cases h10 : n < 10
    · simp [toDecimalAux, h10]
    · simp [toDecimalAux, h10]

theorem toDecimalAux_digits : ∀ fuel n : Nat, n < fuel →
    ∀ c ∈ toDecimalAux fuel n, isDigitChar c = true := by
  intro fuel
  induction fuel with
  | zero => intro n h; omega
  | succ fuel ih =>
    intro n hn c hc
    by_cases h10 : n < 10
    · simp [toDecimalAux, h10] at hc
      rw [hc]
      exact isDigitChar_digitChar h10
    · rw [show toDecimalAux (fuel + 1) n =
          toDecimalAux fuel (n / 10) ++ [digitChar (n % 10)] from by
        rw [toDecimalAux]; rw [if_neg h10]] at hc
      rcases List.mem_append.mp hc with hc | hc
      · exact ih (n / 10) (by omega) c hc
      · simp at hc
        rw [hc]
        exact isDigitChar_digitChar (Nat.mod_lt _ (by omega))

theorem toDecimalAux_parse : ∀ fuel n : Nat, n < fuel →
    pyParseDigits (toDecimalAux fuel n) = n := by
  intro fuel
  induction fuel with
  | zero => intro n h; omega
  | succ fuel ih =>
    intro n hn
    by_cases h10 : n < 10
    · simp [toDecimalAux, h10, pyParseDigits, toNat_digitChar h10]
    · rw [show toDecimalAux (fuel + 1) n =
          toDecimalAux fuel (n / 10) ++ [digitChar (n % 10)] from by
        rw [toDecimalAux]; rw [if_neg h10]]
      rw [pyParseDigits_append, ih (n / 10) (by omega),
        toNat_digitChar (Nat.mod_lt _ (by omega))]
      omega

theorem toDecimalAux_head : ∀ fuel n : Nat, n < fuel → 0 < n →
    ∃ c cs, toDecimalAux fuel n = c :: cs ∧ (c == '0') = false := by
  intro fuel
  induction fuel with
  | zero => intro n h; omega
  | succ fuel ih =>
    intro n hn h0
    by_cases h10 : n < 10
    · refine ⟨digitChar n, [], ?_, digitChar_ne_zero h0 h10⟩
      simp [toDecimalAux, h10]
    · obtain ⟨c, cs, heq, hne⟩ := ih (n / 10) (by omega) (by omega)
      refine ⟨c, cs ++ [digitChar (n % 10)], ?_, hne⟩
      rw [show toDecimalAux (fuel + 1) n =
          toDecimalAux fuel (n / 10) ++ [digitChar (n % 10)] from by
        rw [toDecimalAux]; rw [if_neg h10]]
      rw [heq]
      rfl

theorem toDecimal_digits (n : Nat) : ∀ c ∈ toDecimal n, isDigitChar c = true :=
  toDecimalAux_digits (n + 1) n (Nat.lt_succ_self n)

theorem pyParseDigits_toDecimal (n : Nat) : pyParseDigits (toDecimal n) = n :=
  toDecimalAux_parse (n + 1) n (Nat.lt_succ_self n)

theorem toDecimal_head {n : Nat} (h : 0 < n) :
    ∃ c cs, toDecimal n = c :: cs ∧ (c == '0') = false :=
  toDecimalAux_head (n + 1) n (Nat.lt_succ_self n) h

/-! Facts about first-occurrence deduplication. -/

theorem mem_dedupFirstAux : ∀ (l seen : List Int) (y : Int),
    y ∈ dedupFirstAux l seen ↔ y ∈ l ∧ y ∉ seen := by
  intro l
  induction l with
  | nil => simp [dedupFirstAux]
  | cons x xs ih =>
    intro seen y
    by_cases hx : x ∈ seen
    · rw [show dedupFirstAux (x :: xs) seen = dedupFirstAux xs seen from by
        rw [dedupFirstAux]; rw [if_pos hx]]
      rw [ih seen y]
      constructor
      · exact fun h => ⟨List.mem_cons_of_mem x h.1, h.2⟩
      · rintro ⟨hy, hns⟩
        rcases List.mem_cons.mp hy with rfl | hy
        · exact absurd hx hns
        · exact ⟨hy, hns⟩
    · rw [show dedupFirstAux (x :: xs) seen = x :: dedupFirstAux xs (x :: seen) from by
        rw [dedupFirstAux]; rw [if_neg hx]]
      constructor
      · intro hy
        rcases List.mem_cons.mp hy with rfl | hy
        · exact ⟨List.mem_cons_self _ _, hx⟩
        · have := (ih (x :: seen) y).mp hy
          exact ⟨List.mem_cons_of_mem x this.1, fun hs => this.2 (List.mem_cons_of_mem x hs)⟩
      · rintro ⟨hy, hns⟩
        by_cases hxy : y = x
        · subst hxy; exact List.mem_cons_self _ _
        · rcases List.mem_cons.mp hy with rfl | hy
          · exact absurd rfl hxy
          · exact List.mem_cons_of_mem x ((ih (x :: seen) y).mpr
              ⟨hy, fun hs => by
                rcases List.mem_cons.mp hs with h | h
                · exact hxy h
                · exact hns h⟩)

theorem dedupFirstAux_sublist : ∀ (l seen : List Int), List.Sublist (dedupFirstAux l seen) l := by
  intro l
  induction l with
  | nil => intro seen; simp [dedupFirstAux]
  | cons x xs ih =>
    intro seen
    by_cases hx : x ∈ seen
    · rw [show dedupFirstAux (x :: xs) seen = dedupFirstAux xs seen from by
        rw [dedupFirstAux]; rw [if_pos hx]]
      exact (ih seen).cons x
    · rw [show dedupFirstAux (x :: xs) seen = x :: dedupFirstAux xs (x :: seen) from by
        rw [dedupFirstAux]; rw [if_neg hx]]
      exact (ih (x :: seen)).cons₂ x

theorem nodup_dedupFirstAux : ∀ (l seen : List Int), (dedupFirstAux l seen).Nodup := by
  intro l
  induction l with
  | nil => intro seen; simp [dedupFirstAux]
  | cons x xs ih =>
    intro seen
    by_cases hx : x ∈ seen
    · rw [show dedupFirstAux (x :: xs) seen = dedupFirstAux xs seen from by
        rw [dedupFirstAux]; rw [if_pos hx]]
      exact ih seen
    · rw [show dedupFirstAux (x :: xs) seen = x :: dedupFirstAux xs (x :: seen) from by
        rw [dedupFirstAux]; rw [if_neg hx]]
      refine List.nodup_cons.mpr ⟨?_, ih (x :: seen)⟩
      intro hmem
      exact ((mem_dedupFirstAux xs (x :: seen) x).mp hmem).2 (List.mem_cons_self _ _)

end KMLCore

namespace KMLCore

/-! The guards of `extract_number` cannot fire on a digit-bearing string. -/

theorem guard_false_of_digit {s : List Char} {d : Char}
    (hd : d ∈ s) (hdig : isDigitChar d = true) :
    (s.isEmpty || pyIsAlpha (s.filter (fun c => c.toNat != 32))) = false := by
  have h1 : s.isEmpty = false := by
    cases s
    · simp at hd
    · rfl
  have h2 : pyIsAlpha (s.filter (fun c => c.toNat != 32)) = false := by
    have hfa : (s.filter (fun c => c.toNat != 32)).all isAlphaChar = false :=
      List.all_eq_false.mpr ⟨d, List.mem_filter.mpr ⟨hd, isDigitChar_ne_32 hdig⟩,
        by simp [isDigitChar_not_alpha hdig]⟩
    simp [pyIsAlpha, hfa]
  rw [h1, h2]
  rfl

/-- Value of the extractor on a label of the shape the formatter produces:
a `P` followed by digits with a nonzero leading digit. -/
theorem extractNumberStr_P_digits {c : Char} {cs : List Char}
    (hall : ∀ d ∈ c :: cs, isDigitChar d = true)
    (hne0 : (c == '0') = false) :
    extractNumberStr ('P' :: c :: cs) = (pyParseDigits (c :: cs) : Int) := by
  have hnospace : ∀ d ∈ 'P' :: c :: cs, pyIsSpace d = false := by
    intro d hd
    rcases List.mem_cons.mp hd with rfl | hd
    · decide
    · exact isDigitChar_not_space (hall d hd)
  have hfix : ∀ d ∈ 'P' :: c :: cs, Char.toUpper d = d := by
    intro d hd
    rcases List.mem_cons.mp hd with rfl | hd
    · decide
    · exact toUpper_of_digit (hall d hd)
  have hstrip : pyStrip ('P' :: c :: cs) = 'P' :: c :: cs := pyStrip_of_no_space hnospace
  have hupper : pyUpper ('P' :: c :: cs) = 'P' :: c :: cs := pyUpper_fixed hfix
  have hcdig : isDigitChar c = true := hall c (by simp)
  have hguard := guard_false_of_digit (List.mem_cons_of_mem 'P' (List.mem_cons_self c cs)) hcdig
  have hsplit : splitWS ('P' :: c :: cs) = ['P' :: c :: cs] := by
    unfold splitWS
    rw [runsAux_single _ [] (Or.inr (by simp)) (fun d hd => by simp [hnospace d hd])]
    simp
  have hsearch : reSearchDigits ('P' :: c :: cs) = some (c :: cs) := by
    rw [show reSearchDigits ('P' :: c :: cs) =
        if isDigitChar 'P' then some ('P' :: (c :: cs).takeWhile isDigitChar)
        else reSearchDigits (c :: cs) from rfl]
    rw [if_neg (by decide)]
    rw [show reSearchDigits (c :: cs) =
        if isDigitChar c then some (c :: cs.takeWhile isDigitChar)
        else reSearchDigits cs from rfl]
    rw [if_pos hcdig]
    rw [takeWhile_eq_self_of fun d hd => hall d (by simp [hd])]
  have hscan : scanTokens ['P' :: c :: cs] = some (runValue (c :: cs)) := by
    rw [show scanTokens ['P' :: c :: cs] =
        match reSearchDigits ('P' :: c :: cs) with
        | some run => some (runValue run)
        | none => scanTokens ([] : List (List Char)) from rfl]
    rw [hsearch]
  have hlstrip : lstripZeros (c :: cs) = c :: cs := by
    unfold lstripZeros
    rw [List.dropWhile_cons, if_neg (by simp [hne0])]
  simp only [extractNumberStr]
  rw [hstrip, hupper, hguard, hsplit, hscan]
  simp [runValue, hlstrip]

/-! Destructuring `process_kml_file`. -/

theorem process_nil_eq {α : Type} :
    process_kml_file ([] : List (RawRecord α)) =
      Except.error ⟨400, ("No valid placemarks found in KML file").data⟩ := rfl

theorem process_ne_nil_eq {α : Type} {records : List (RawRecord α)} (h : records ≠ []) :
    process_kml_file records =
      Except.ok (sortByNumber (records.map keyRecord),
        { total_poles := (sortByNumber (records.map keyRecord)).length
          duplicate_numbers := dupNumbers (sortByNumber (records.map keyRecord))
          duplicate_count := (dupNumbers (sortByNumber (records.map keyRecord))).length
          sample_data := (sortByNumber (records.map keyRecord)).take 10 }) := by
  unfold process_kml_file
  rw [if_neg (by simp [h])]

theorem ne_nil_of_process_ok {α : Type} {records : List (RawRecord α)}
    {ds : List (KeyedRecord α)} {smry : Summary α}
    (h : process_kml_file records = Except.ok (ds, smry)) : records ≠ [] := by
  intro he
  subst he
  rw [process_nil_eq] at h
  exact Except.noConfusion h

theorem process_ok_inv {α : Type} {records : List (RawRecord α)}
    {ds : List (KeyedRecord α)} {smry : Summary α}
    (h : process_kml_file records = Except.ok (ds, smry)) :
    ds = sortByNumber (records.map keyRecord)
    ∧ smry = { total_poles := ds.length
               duplicate_numbers := dupNumbers ds
               duplicate_count := (dupNumbers ds).length
               sample_data := ds.take 10 } := by
  have hne := ne_nil_of_process_ok h
  rw [process_ne_nil_eq hne] at h
  simp only [Except.ok.injEq, Prod.mk.injEq] at h
  obtain ⟨hds, hsm⟩ := h
  subst hds
  exact ⟨rfl, hsm.symm⟩

/-! Facts about the sort and the duplicate report. -/

theorem sortByNumber_perm {α : Type} (l : List (KeyedRecord α)) :
    (sortByNumber l).Perm l :=
  List.perm_insertionSort numberLE l

theorem sortByNumber_sorted {α : Type} (l : List (KeyedRecord α)) :
    (sortByNumber l).Pairwise numberLE :=
  List.sorted_insertionSort numberLE l

theorem countNumber_perm {α : Type} {l l' : List (KeyedRecord α)}
    (h : l.Perm l') (k : Int) : countNumber l k = countNumber l' k := by
  unfold countNumber
  exact (h.filter _).length_eq

theorem countNumber_two_le_mem {α : Type} {df : List (KeyedRecord α)} {k : Int}
    (h : 2 ≤ countNumber df k) : ∃ r, r ∈ df ∧ r.number = k := by
  unfold countNumber at h
  rcases hf : df.filter (fun r => r.number == k) with _ | ⟨r, rs⟩
  · rw [hf] at h
    simp at h
  · have hr : r ∈ df.filter (fun r => r.number == k) := by
      rw [hf]
      exact List.mem_cons_self r rs
    have hmem := List.mem_filter.mp hr
    exact ⟨r, hmem.1, by simpa using hmem.2⟩

theorem mem_dupNumbers {α : Type} {df : List (KeyedRecord α)} {k : Int} :
    k ∈ dupNumbers df ↔ 0 < k ∧ 2 ≤ countNumber df k := by
  unfold dupNumbers dedupFirst
  rw [List.mem_filter, mem_dedupFirstAux]
  constructor
  · rintro ⟨⟨hmap, -⟩, hpos⟩
    obtain ⟨r, hrf, hrk⟩ := List.mem_map.mp hmap
    have := List.mem_filter.mp hrf
    refine ⟨by simpa using hpos, ?_⟩
    have h2 : 2 ≤ countNumber df r.number := by simpa using this.2
    rw [← hrk]
    exact h2
  · rintro ⟨hpos, h2⟩
    obtain ⟨r, hrdf, hrk⟩ := countNumber_two_le_mem h2
    refine ⟨⟨List.mem_map.mpr ⟨r, List.mem_filter.mpr ⟨hrdf, ?_⟩, hrk⟩, by simp⟩,
      by simpa using hpos⟩
    simp [hrk, h2]

theorem nodup_dupNumbers {α : Type} (df : List (KeyedRecord α)) :
    (dupNumbers df).Nodup := by
  unfold dupNumbers dedupFirst
  exact (nodup_dedupFirstAux _ []).filter _

theorem dupNumbers_pairwise_lt {α : Type} {df : List (KeyedRecord α)}
    (hsort : df.Pairwise numberLE) :
    (dupNumbers df).Pairwise (fun a b : Int => a < b) := by
  have h1 : (df.filter (fun r => 2 ≤ countNumber df r.number)).Pairwise numberLE :=
    hsort.sublist (List.filter_sublist df)
  have h2 : ((df.filter (fun r => 2 ≤ countNumber df r.number)).map
      (fun r => r.number)).Pairwise (fun a b : Int => a ≤ b) := by
    rw [List.pairwise_map]
    exact h1.imp (fun h => h)
  have h3 := h2.sublist (dedupFirstAux_sublist _ [])
  have h4 : (dedupFirstAux ((df.filter (fun r => 2 ≤ countNumber df r.number)).map
      (fun r => r.number)) []).Nodup := nodup_dedupFirstAux _ []
  have h5 : (dedupFirstAux ((df.filter (fun r => 2 ≤ countNumber df r.number)).map
      (fun r => r.number)) []).Pairwise (fun a b : Int => a < b) :=
    (h3.and h4).imp (fun h => lt_of_le_of_ne h.1 h.2)
  exact h5.sublist (List.filter_sublist _)

end KMLCore

namespace KMLCore

instance {ε α : Type} [DecidableEq ε] [DecidableEq α] : DecidableEq (Except ε α) :=
  fun x y =>
    match x, y with
    | Except.error e, Except.error f =>
      decidable_of_iff (e = f) ⟨fun h => by rw [h], fun h => by cases h; rfl⟩
    | Except.error _, Except.ok _ => isFalse fun h => Except.noConfusion h
    | Except.ok _, Except.error _ => isFalse fun h => Except.noConfusion h
    | Except.ok a, Except.ok b =>
      decidable_of_iff (a = b) ⟨fun h => by rw [h], fun h => by cases h; rfl⟩

/-- Claim C5: extract_number is total over all text inputs — it is a Lean
function, hence terminating on every input, and its value is always a
non-negative integer. -/
theorem extract_number_nonneg : ∀ x : Option (List Char), 0 ≤ extract_number x := by
  intro x
  cases x with
  | none => exact le_refl 0
  | some raw =>
    rw [show extract_number (some raw) = extractNumberStr raw from rfl]
    simp only [extractNumberStr]
    split
    · exact le_refl 0
    · split
      · next v hv => exact scanTokens_nonneg hv
      · split
        · next run rest hrun => exact runValue_nonneg run
        · exact le_refl 0

end KMLCore

namespace KMLCore

theorem filter_32_map_toUpper (l : List Char) :
    (l.map Char.toUpper).filter (fun c => c.toNat != 32) =
      (l.filter (fun c => c.toNat != 32)).map Char.toUpper := by
  rw [List.filter_map]
  have hpred : ∀ c ∈ l, ((fun c : Char => c.toNat != 32) ∘ Char.toUpper) c
      = (fun c : Char => c.toNat != 32) c := by
    intro c _
    show ((Char.toUpper c).toNat != 32) = (c.toNat != 32)
    by_cases h : c.toNat = 32
    · rw [toNat_toUpper_eq_32 h, h]
    · have h2 := toNat_toUpper_ne_32 h
      rw [(by simp [h2] : ((Char.toUpper c).toNat != 32) = true),
        (by simp [h] : (c.toNat != 32) = true)]
  rw [List.filter_congr hpred]

theorem pyIsAlpha_map_toUpper {l : List Char} (h : pyIsAlpha l = true) :
    pyIsAlpha (l.map Char.toUpper) = true := by
  unfold pyIsAlpha at h ⊢
  simp only [Bool.and_eq_true] at h ⊢
  obtain ⟨h1, h2⟩ := h
  constructor
  · cases l
    · simp at h1
    · rfl
  · rw [List.all_eq_true] at h2 ⊢
    intro c hc
    obtain ⟨d, hd, rfl⟩ := List.mem_map.mp hc
    exact isAlphaChar_toUpper (h2 d hd)

/-- Claim C7: extract_number returns 0 when the input is absent or not a
string, when the label trims to the empty string, and when the trimmed
label consists entirely of alphabetic characters once its space
characters are removed. -/
theorem extract_number_zero_cases :
    extract_number none = 0
    ∧ (∀ s : List Char, pyStrip s = [] → extract_number (some s) = 0)
    ∧ (∀ s : List Char,
        pyIsAlpha ((pyStrip s).filter (fun c => c.toNat != 32)) = true →
        extract_number (some s) = 0) := by
  refine ⟨rfl, ?_, ?_⟩
  · intro s h
    rw [show extract_number (some s) = extractNumberStr s from rfl]
    simp only [extractNumberStr]
    rw [h]
    rfl
  · intro s h
    rw [show extract_number (some s) = extractNumberStr s from rfl]
    simp only [extractNumberStr]
    have halpha : pyIsAlpha ((pyUpper (pyStrip s)).filter (fun c => c.toNat != 32)) = true := by
      unfold pyUpper
      rw [filter_32_map_toUpper]
      exact pyIsAlpha_map_toUpper h
    rw [halpha]
    simp

/-- Witness for C7 at the inputs ABC, the empty string, and a blank
string. -/
theorem extract_number_zero_cases_witness :
    extract_number (some (("ABC").data)) = 0
    ∧ extract_number (some (("").data)) = 0
    ∧ extract_number (some (("   ").data)) = 0 :=
  ⟨extract_number_zero_cases.2.2 (("ABC").data) (by decide),
   extract_number_zero_cases.2.1 (("").data) (by decide),
   extract_number_zero_cases.2.1 (("   ").data) (by decide)⟩

/-- Claim C10: the whole-string fallback of extract_number is unreachable —
on every input the function agrees with the variant whose result is
decided by the token scan alone. -/
theorem extract_number_eq_token_scan :
    ∀ x : Option (List Char), extract_number x = extract_number_token_scan x := by
  intro x
  cases x with
  | none => rfl
  | some raw =>
    rw [show extract_number (some raw) = extractNumberStr raw from rfl]
    simp only [extract_number_token_scan, extractNumberStr]
    cases hguard : (pyUpper (pyStrip raw)).isEmpty ||
        pyIsAlpha ((pyUpper (pyStrip raw)).filter (fun c => c.toNat != 32)) with
    | true => simp [hguard]
    | false =>
      simp only [hguard, Bool.false_eq_true, if_false]
      cases hsc : scanTokens (splitWS (pyUpper (pyStrip raw))) with
      | some v => simp [hsc]
      | none =>
        have hfind : List.find? (fun t => t.any isDigitChar)
            (splitWS (pyUpper (pyStrip raw))) = none := by
          rw [scanTokens_eq] at hsc
          exact Option.map_eq_none'.mp hsc
        have hnone := List.find?_eq_none.mp hfind
        have hnodig : ∀ c ∈ pyUpper (pyStrip raw), isDigitChar c = false := by
          intro c hc
          by_contra hcd
          have hcd' : isDigitChar c = true := by simpa using hcd
          have hcf : c ∈ (pyUpper (pyStrip raw)).filter (fun d => !pyIsSpace d) :=
            List.mem_filter.mpr ⟨hc, by simp [isDigitChar_not_space hcd']⟩
          have hflat := flatten_runsAux (fun d => !pyIsSpace d) (pyUpper (pyStrip raw)) []
          simp only [List.reverse_nil, List.nil_append] at hflat
          rw [← hflat] at hcf
          obtain ⟨t, ht, hct⟩ := List.mem_flatten.mp hcf
          have hta : t.any isDigitChar = true := List.any_eq_true.mpr ⟨c, hct, hcd'⟩
          exact absurd hta (by simpa using hnone t ht)
        have hempty : reFindallDigits (pyUpper (pyStrip raw)) = [] :=
          runsAux_eq_nil hnodig
        simp [hsc, hempty]

/-- Claim C1: on the normalised label, the first whitespace token that
contains a digit decides the result: its first contiguous digit run, with
leading zeros stripped, is returned as an integer (0 when the run is all
zeros); later tokens are never consulted. -/
theorem extract_number_first_token {s t : List Char}
    (h : List.find? (fun t => t.any isDigitChar) (splitWS (pyUpper (pyStrip s))) = some t) :
    extract_number (some s) =
      (if lstripZeros (firstDigitRun t) = [] then 0
       else (pyParseDigits (lstripZeros (firstDigitRun t)) : Int)) := by
  have ht : t ∈ splitWS (pyUpper (pyStrip s)) := List.mem_of_find?_eq_some h
  have hany : t.any isDigitChar = true := by simpa using List.find?_some h
  obtain ⟨d, hdt, hdd⟩ := List.any_eq_true.mp hany
  have hd : d ∈ pyUpper (pyStrip s) :=
    List.mem_of_mem_filter (mem_of_mem_runs ht hdt)
  have hguard := guard_false_of_digit hd hdd
  have hscan : scanTokens (splitWS (pyUpper (pyStrip s))) = some (runValue (firstDigitRun t)) := by
    rw [scanTokens_eq, h]
    rfl
  rw [show extract_number (some s) = extractNumberStr s from rfl]
  simp only [extractNumberStr]
  rw [hguard, hscan]
  simp [runValue]

/-- Witness for C1 at the label POLE-12 SPARE, whose first digit-bearing
token is POLE-12. -/
theorem extract_number_first_token_witness :
    extract_number (some (("POLE-12 SPARE").data)) =
      (if lstripZeros (firstDigitRun (("POLE-12").data)) = [] then 0
       else (pyParseDigits (lstripZeros (firstDigitRun (("POLE-12").data))) : Int)) :=
  extract_number_first_token (by decide)

end KMLCore

namespace KMLCore

theorem extract_number_P_toDecimal {m : Nat} (h : 0 < m) :
    extract_number (some ('P' :: toDecimal m)) = (m : Int) := by
  obtain ⟨c, cs, hds, hne⟩ := toDecimal_head h
  have hall : ∀ d ∈ c :: cs, isDigitChar d = true := by
    rw [← hds]
    exact toDecimal_digits m
  rw [show extract_number (some ('P' :: toDecimal m))
      = extractNumberStr ('P' :: toDecimal m) from rfl]
  rw [hds, extractNumberStr_P_digits hall hne, ← hds, pyParseDigits_toDecimal]

/-- Claim C6: for a record whose key is positive, the display identifier is
the letter P followed by the decimal digits of the key (no leading
zeros), and re-extracting a number from the display identifier returns
the key. -/
theorem displayId_roundtrip {α : Type} (r : RawRecord α)
    (h : 0 < (keyRecord r).number) :
    (keyRecord r).formatted_ID = 'P' :: toDecimal (keyRecord r).number.toNat
    ∧ extract_number (some ((keyRecord r).formatted_ID)) = (keyRecord r).number := by
  have hk : 0 < extract_number (some r.identifier) := h
  have hfmt : (keyRecord r).formatted_ID
      = 'P' :: toDecimal (extract_number (some r.identifier)).toNat := by
    rw [show (keyRecord r).formatted_ID =
        (if 0 < extract_number (some r.identifier)
         then 'P' :: pyStr (extract_number (some r.identifier))
         else pyUpper (pyStrip r.identifier)) from rfl]
    rw [if_pos hk]
    unfold pyStr
    rw [if_neg (by omega)]
  constructor
  · exact hfmt
  · rw [hfmt, extract_number_P_toDecimal (by omega)]
    rw [Int.toNat_of_nonneg (le_of_lt hk)]
    rfl

/-- Witness for C6 at a record labelled POLE 7 (key 7, display P7). -/
theorem displayId_roundtrip_witness :
    (keyRecord (⟨("POLE 7").data, 1, 2⟩ : RawRecord Nat)).formatted_ID
      = 'P' :: toDecimal (keyRecord (⟨("POLE 7").data, 1, 2⟩ : RawRecord Nat)).number.toNat
    ∧ extract_number
        (some ((keyRecord (⟨("POLE 7").data, 1, 2⟩ : RawRecord Nat)).formatted_ID))
      = (keyRecord (⟨("POLE 7").data, 1, 2⟩ : RawRecord Nat)).number :=
  displayId_roundtrip (⟨("POLE 7").data, 1, 2⟩ : RawRecord Nat) (by decide)

/-- Claim C4: process_kml_file fails, with the distinguishable
no-valid-placemarks error, exactly on the empty record sequence, and on
every non-empty sequence it returns a dataset and summary. -/
theorem process_error_iff_empty {α : Type} (records : List (RawRecord α)) :
    (records = [] →
      process_kml_file records =
        Except.error ⟨400, ("No valid placemarks found in KML file").data⟩)
    ∧ (records ≠ [] →
      ∃ ds smry, process_kml_file records = Except.ok (ds, smry)) := by
  constructor
  · rintro rfl
    exact process_nil_eq
  · intro h
    exact ⟨_, _, process_ne_nil_eq h⟩

/-- Witness for C4 at the empty sequence and at a one-record sequence. -/
theorem process_error_iff_empty_witness :
    process_kml_file ([] : List (RawRecord Nat)) =
      Except.error ⟨400, ("No valid placemarks found in KML file").data⟩
    ∧ ∃ ds smry,
        process_kml_file [(⟨("P1").data, 0, 0⟩ : RawRecord Nat)] = Except.ok (ds, smry) :=
  ⟨(process_error_iff_empty ([] : List (RawRecord Nat))).1 rfl,
   (process_error_iff_empty [(⟨("P1").data, 0, 0⟩ : RawRecord Nat)]).2 (by decide)⟩

/-- Claim C8: the pipeline is deterministic — two runs of process_kml_file
on the same record sequence yield the same output. -/
theorem process_deterministic {α : Type} (records : List (RawRecord α))
    (o₁ o₂ : Except HTTPException (List (KeyedRecord α) × Summary α))
    (h₁ : process_kml_file records = o₁) (h₂ : process_kml_file records = o₂) :
    o₁ = o₂ := by
  rw [← h₁, ← h₂]

/-- Witness for C8: a run of the pipeline on a one-record input equals the
value of a second run. -/
theorem process_deterministic_witness :
    Except.ok ([(⟨("POLE 7").data, 1, 2, 7, ("P7").data⟩ : KeyedRecord Nat)],
        (⟨1, [], 0, [⟨("POLE 7").data, 1, 2, 7, ("P7").data⟩]⟩ : Summary Nat))
      = process_kml_file [(⟨("POLE 7").data, 1, 2⟩ : RawRecord Nat)] :=
  process_deterministic [(⟨("POLE 7").data, 1, 2⟩ : RawRecord Nat)] _ _ (by decide) rfl

/-- Claim C9: the normalizer only reorders rows and adds the two derived
columns — the output dataset is a permutation of the keyed input rows,
and keying preserves the identifier, latitude and longitude fields. -/
theorem process_preserves_fields {α : Type} (records : List (RawRecord α))
    (ds : List (KeyedRecord α)) (smry : Summary α)
    (h : process_kml_file records = Except.ok (ds, smry)) :
    ds.Perm (records.map keyRecord)
    ∧ ∀ r : RawRecord α, (keyRecord r).identifier = r.identifier
        ∧ (keyRecord r).latitude = r.latitude
        ∧ (keyRecord r).longitude = r.longitude := by
  obtain ⟨hds, -⟩ := process_ok_inv h
  subst hds
  exact ⟨sortByNumber_perm _, fun r => ⟨rfl, rfl, rfl⟩⟩

/-- Witness for C9 at a two-record input whose rows are reordered. -/
theorem process_preserves_fields_witness :
    ([⟨("ABC").data, 5, 6, 0, ("ABC").data⟩,
      ⟨("POLE 5").data, 3, 4, 5, ("P5").data⟩] : List (KeyedRecord Nat)).Perm
        (([⟨("POLE 5").data, 3, 4⟩, ⟨("ABC").data, 5, 6⟩] : List (RawRecord Nat)).map
          keyRecord)
    ∧ (keyRecord (⟨("POLE 5").data, 3, 4⟩ : RawRecord Nat)).latitude = 3 := by
  have h := process_preserves_fields
    ([⟨("POLE 5").data, 3, 4⟩, ⟨("ABC").data, 5, 6⟩] : List (RawRecord Nat))
    ([⟨("ABC").data, 5, 6, 0, ("ABC").data⟩, ⟨("POLE 5").data, 3, 4, 5, ("P5").data⟩])
    (⟨2, [], 0, [⟨("ABC").data, 5, 6, 0, ("ABC").data⟩,
      ⟨("POLE 5").data, 3, 4, 5, ("P5").data⟩]⟩ : Summary Nat)
    (by decide)
  exact ⟨h.1, ((h.2 ⟨("POLE 5").data, 3, 4⟩).2).1⟩

/-- Claim C3: the duplicate report lists exactly the positive keys that
occur in at least two records, in strictly ascending order, and the
reported count is the cardinality of that set of keys. -/
theorem process_duplicate_report {α : Type} (records : List (RawRecord α))
    (ds : List (KeyedRecord α)) (smry : Summary α)
    (h : process_kml_file records = Except.ok (ds, smry)) :
    (∀ k : Int, k ∈ smry.duplicate_numbers ↔
      0 < k ∧ 2 ≤ countNumber (records.map keyRecord) k)
    ∧ smry.duplicate_count = smry.duplicate_numbers.toFinset.card
    ∧ smry.duplicate_numbers.Pairwise (fun a b : Int => a < b) := by
  obtain ⟨hds, hsm⟩ := process_ok_inv h
  subst hsm
  refine ⟨?_, ?_, ?_⟩
  · intro k
    show k ∈ dupNumbers ds ↔ 0 < k ∧ 2 ≤ countNumber (records.map keyRecord) k
    rw [mem_dupNumbers, hds,
      countNumber_perm (sortByNumber_perm (records.map keyRecord)) k]
  · show (dupNumbers ds).length = (dupNumbers ds).toFinset.card
    exact (List.toFinset_card_of_nodup (nodup_dupNumbers ds)).symm
  · show List.Pairwise (fun a b : Int => a < b) (dupNumbers ds)
    rw [hds]
    exact dupNumbers_pairwise_lt (sortByNumber_sorted (records.map keyRecord))

end KMLCore

namespace KMLCore

/-- Input for the C3 witness: keys 5, 3, 5. -/
def c3recs : List (RawRecord Nat) :=
  [⟨("POLE 5").data, 1, 1⟩, ⟨("POLE 3").data, 2, 2⟩, ⟨("P5").data, 3, 3⟩]

/-- Sorted dataset the pipeline produces on `c3recs`. -/
def c3ds : List (KeyedRecord Nat) :=
  [⟨("POLE 3").data, 2, 2, 3, ("P3").data⟩,
   ⟨("POLE 5").data, 1, 1, 5, ("P5").data⟩,
   ⟨("P5").data, 3, 3, 5, ("P5").data⟩]

/-- Summary the pipeline produces on `c3recs`. -/
def c3smry : Summary Nat := ⟨3, [5], 1, c3ds⟩

/-- Witness for C3 at an input with keys 5, 3, 5: key 5 is reported, key 3
is not, the count matches the cardinality, and the list is ascending. -/
theorem process_duplicate_report_witness :
    (5 : Int) ∈ c3smry.duplicate_numbers
    ∧ ((3 : Int) ∈ c3smry.duplicate_numbers → False)
    ∧ c3smry.duplicate_count = c3smry.duplicate_numbers.toFinset.card
    ∧ c3smry.duplicate_numbers.Pairwise (fun a b : Int => a < b) := by
  have h := process_duplicate_report c3recs c3ds c3smry (by decide)
  refine ⟨(h.1 5).mpr (by decide), ?_, h.2.1, h.2.2⟩
  intro hm
  exact absurd ((h.1 3).mp hm).2 (by decide)

end KMLCore
